import Mathlib

/-!
Verification of the weekly_bot repository (src/weekly_report.py) against its
natural-language specification.

Shallow embedding conventions:
* Python `str` is modelled as `List Char` (`LStr`); `len` is `List.length`
  (Python counts code points, Lean `List Char` elements are Unicode scalar
  values — identical on the texts involved).
* Python `datetime.date` is modelled by its proleptic-Gregorian ordinal
  (`date.toordinal()`) as an `Int`; `timedelta(days=k)` is `+ k`;
  `date.weekday()` (Monday = 0) is `(ordinal + 6) % 7` (ordinal 1, i.e.
  0001-01-01, is a Monday); comparison of `date` objects is comparison of
  ordinals.
* The Telegram transport is modelled by oracles giving the outcome of each
  outbound attempt (`success` / `TimedOut` / other exception); logging is
  modelled by counters / flags in the returned traces.
* `str.splitlines` is modelled for the `\n`, `\r\n` and `\r` terminators
  (the report text is built with `\n` only); `str.strip()`-blankness checks
  the ASCII whitespace characters.
-/

namespace WeeklyBot

/-- Python strings modelled as lists of Unicode scalar values. -/
abbrev LStr := List Char

/-- Whitespace characters recognised by Python's `str.strip()` (ASCII part). -/
def isSpacePy (c : Char) : Bool :=
  c = ' ' || c = '\t' || c = '\n' || c = '\r' || c = Char.ofNat 11 || c = Char.ofNat 12

/-- Python `str.strip()`. -/
def pyStrip (s : LStr) : LStr :=
  ((s.dropWhile isSpacePy).reverse.dropWhile isSpacePy).reverse

/-- Helper for `splitlinesPy`: accumulates the current line; a terminator
(`\r\n`, `\n` or `\r`) ends a line, a trailing terminator produces no extra
empty line (Python `str.splitlines` semantics). -/
def splitlinesGo : LStr → LStr → List LStr
  | cur, [] => [cur]
  | cur, '\r' :: '\n' :: rest =>
      cur :: (if rest = [] then [] else splitlinesGo [] rest)
  | cur, '\n' :: rest =>
      cur :: (if rest = [] then [] else splitlinesGo [] rest)
  | cur, '\r' :: rest =>
      cur :: (if rest = [] then [] else splitlinesGo [] rest)
  | cur, c :: rest => splitlinesGo (cur ++ [c]) rest

/-- Python `str.splitlines()` (for the `\n`, `\r\n`, `\r` terminators). -/
def splitlinesPy (s : LStr) : List LStr :=
  if s = [] then [] else splitlinesGo [] s

/-! ## HTML escaping — `html.escape` as used by `_h` / `_h_attr`
(src/weekly_report.py lines 95-102).  Python's sequential `str.replace`
calls are equivalent to the character-wise expansion below because the
replacement texts contain no further escapable characters. -/

/-- Escape one character for an HTML attribute (`html.escape(s, quote=True)`):
`&`, `<`, `>`, `"` (code 34) and the apostrophe (code 39). -/
def escAttrChar (c : Char) : LStr :=
  if c = '&' then "&amp;".data
  else if c = '<' then "&lt;".data
  else if c = '>' then "&gt;".data
  else if c.toNat = 34 then "&quot;".data
  else if c.toNat = 39 then "&#x27;".data
  else [c]

/-- Escape one character for an HTML body (`html.escape(s, quote=False)`). -/
def escBodyChar (c : Char) : LStr :=
  if c = '&' then "&amp;".data
  else if c = '<' then "&lt;".data
  else if c = '>' then "&gt;".data
  else [c]

/-- `_h_attr` on a non-None string: attribute-escape every character. -/
def escapeAttr : LStr → LStr
  | [] => []
  | c :: rest => escAttrChar c ++ escapeAttr rest

/-- `_h` on a non-None string: body-escape every character. -/
def escapeBody : LStr → LStr
  | [] => []
  | c :: rest => escBodyChar c ++ escapeBody rest

/-! ## URL parsing — the fragment of `urllib.parse.urlparse` consulted by
`_safe_href` (scheme and netloc). -/

/-- Characters allowed in a URL scheme after the leading letter
(CPython `scheme_chars`). -/
def isSchemeChar (c : Char) : Bool :=
  c.isAlphanum || c = '+' || c = '-' || c = '.'

/-- Split a string at its first `:`: `some (before, after)` or `none` when
there is no colon. -/
def splitColon : LStr → Option (LStr × LStr)
  | [] => none
  | ':' :: rest => some ([], rest)
  | c :: rest =>
      match splitColon rest with
      | some (b, a) => some (c :: b, a)
      | none => none

/-- A valid scheme token: non-empty, leading ASCII letter, remaining
characters in `scheme_chars` (CPython `urlsplit`). -/
def validScheme : LStr → Bool
  | [] => false
  | c :: rest => c.isAlpha && rest.all isSchemeChar

/-- The netloc of the part following the scheme: present only after `//`,
extending to the first `/`, `?` or `#`. -/
def netlocOf (rest : LStr) : LStr :=
  match rest with
  | '/' :: '/' :: r => r.takeWhile (fun c => ¬ (c = '/' ∨ c = '?' ∨ c = '#'))
  | _ => []

/-- `urlparse(url)` restricted to the `(scheme, netloc)` pair: the scheme is
the lower-cased text before the first `:` when that text is a valid scheme
token, otherwise empty (and the whole string is the rest). -/
def urlSchemeNetloc (url : LStr) : LStr × LStr :=
  match splitColon url with
  | some (b, a) =>
      if validScheme b then (b.map Char.toLower, netlocOf a) else ([], netlocOf url)
  | none => ([], netlocOf url)

/-- `_safe_href` (src/weekly_report.py lines 122-128): `None` unless the
scheme is exactly `http`/`https` and the netloc is non-empty; otherwise the
attribute-escaped URL. -/
def safeHref (url : LStr) : Option LStr :=
  let p := urlSchemeNetloc url
  if ¬ (p.1 = "http".data ∨ p.1 = "https".data) then none
  else if p.2 = [] then none
  else some (escapeAttr url)

/-! ## Access guard — `_is_allowed_chat` / `_is_allowed_user`
(src/weekly_report.py lines 131-142) and their conjunction as used by the
`report` handler (line 539).  The parsed environment sets
`ALLOWED_CHAT_IDS` / `ALLOWED_TG_USERS` are passed as parameters. -/

/-- `_is_allowed_chat`: an empty allow-list permits everyone, otherwise
membership is required. -/
def isAllowedChat (allowed : Finset ℤ) (chatId : ℤ) : Bool :=
  if allowed = ∅ then true else decide (chatId ∈ allowed)

/-- `_is_allowed_user`: an empty allow-list permits everyone; with a
non-empty allow-list a missing (`None`) user id is denied, otherwise
membership is required. -/
def isAllowedUser (allowed : Finset ℤ) (userId : Option ℤ) : Bool :=
  if allowed = ∅ then true
  else
    match userId with
    | none => false
    | some u => decide (u ∈ allowed)

/-- The combined check of the `report` handler (line 539): both the chat and
the user check must pass. -/
def allowedRequest (chats users : Finset ℤ) (chatId : ℤ) (userId : Option ℤ) : Bool :=
  isAllowedChat chats chatId && isAllowedUser users userId

/-! ## Date windows — `last_week_dates` / `current_week_dates`
(src/weekly_report.py lines 172-183).  Dates are proleptic-Gregorian
ordinals (`Int`). -/

/-- Python `date.weekday()` on an ordinal: Monday = 0 … Sunday = 6. -/
def weekday (o : Int) : Int := (o + 6) % 7

/-- `last_week_dates(today)`: previous week's Monday and Sunday,
`today - timedelta(days=today.weekday() + 7)` and `+ 6` days. -/
def lastWeekDates (today : Int) : Int × Int :=
  (today - (weekday today + 7), today - (weekday today + 7) + 6)

/-- `current_week_dates(today)`: this week's Monday and Sunday. -/
def currentWeekDates (today : Int) : Int × Int :=
  (today - weekday today, today - weekday today + 6)

/-! ## Delivery chunkers — `_split_report_chunks` (lines 274-302) and
`_split_report_for_delivery` (lines 305-356).

The two `while start < len(...)` slicing loops advance `start` by a fixed
stride each pass, so they are modelled by fuel recursion with fuel equal to
the length of the sliced string: for stride ≥ 1 the loop makes at most that
many passes (`split_loops_terminate` below proves the fuel is irrelevant
beyond that bound).  The stride of `_split_report_chunks` is the raw
`limit` (the Python loop does not terminate for `limit ≤ 0`; the model is
exact for `limit ≥ 1`, the only case the spec claims); the stride of
`_split_report_for_delivery` is clamped to `max 1 _` by the source itself. -/

/-- The `while start < len(line)` loop of `_split_report_chunks`:
`chunks.append(line[start : start + limit]); start += limit`. -/
def sliceByGo (limit : Nat) : Nat → LStr → List LStr
  | _, [] => []
  | 0, _ => []
  | fuel + 1, line => line.take limit :: sliceByGo limit fuel (line.drop limit)

/-- The slicing loop of `_split_report_chunks` run to completion. -/
def sliceBy (limit : Nat) (line : LStr) : List LStr :=
  sliceByGo limit line.length line

/-- The `while start < len(entry)` loop of `_split_report_for_delivery`:
`chunks.append(f"{title}\n{part}"); start += entry_room`. -/
def hardSplitGo (title : LStr) (room : Nat) : Nat → LStr → List LStr
  | _, [] => []
  | 0, _ => []
  | fuel + 1, entry =>
      (title ++ '\n' :: entry.take room) :: hardSplitGo title room fuel (entry.drop room)

/-- The hard-split loop of `_split_report_for_delivery` run to completion. -/
def hardSplit (title : LStr) (room : Nat) (entry : LStr) : List LStr :=
  hardSplitGo title room entry.length entry

/-- The line-packing loop of `_split_report_chunks` (`chunks` accumulator in
`acc`, `current` in `cur`). -/
def chunksAux (limit : Nat) (acc : List LStr) (cur : LStr) : List LStr → List LStr
  | [] => if cur = [] then acc else acc ++ [cur]
  | line :: rest =>
      let candidate := if cur = [] then line else cur ++ '\n' :: line
      if candidate.length ≤ limit then chunksAux limit acc candidate rest
      else
        let acc2 := if cur = [] then acc else acc ++ [cur]
        if line.length ≤ limit then chunksAux limit acc2 line rest
        else chunksAux limit (acc2 ++ sliceBy limit line) [] rest

/-- `_split_report_chunks(text, limit)` (`return chunks or [text]`). -/
def splitReportChunks (text : LStr) (limit : Nat) : List LStr :=
  if text.length ≤ limit then [text]
  else if chunksAux limit [] [] (splitlinesPy text) = [] then [text]
  else chunksAux limit [] [] (splitlinesPy text)

/-- `not line.strip()`: the line is empty or all whitespace. -/
def isBlankLine (l : LStr) : Bool := l.all isSpacePy

/-- The section builder of `_split_report_for_delivery` (blank lines flush
the current section and are dropped). -/
def sectionsAux : List LStr → List LStr → List (List LStr)
  | [], cur => if cur = [] then [] else [cur]
  | line :: rest, cur =>
      if isBlankLine line then
        if cur = [] then sectionsAux rest [] else cur :: sectionsAux rest []
      else sectionsAux rest (cur ++ [line])

/-- The blank-line-delimited sections of a report text. -/
def sectionsOf (text : LStr) : List (List LStr) :=
  sectionsAux (splitlinesPy text) []

/-- Python `"\n".join`. -/
def joinN : List LStr → LStr
  | [] => []
  | [x] => x
  | x :: y :: rest => x ++ '\n' :: joinN (y :: rest)

/-- The placeholder item substituted for an empty section body
(`section[1:] or ["• —"]`). -/
def bulletDash : LStr := "• —".data

/-- The per-section greedy packing loop of `_split_report_for_delivery`
(`current_lines` in `cur`; emitted chunks are returned in order). -/
def packEntries (limit : Nat) (title : LStr) (cur : List LStr) : List LStr → List LStr
  | [] => if 1 < cur.length then [joinN cur] else []
  | entry :: rest =>
      if (joinN (cur ++ [entry])).length ≤ limit then
        packEntries limit title (cur ++ [entry]) rest
      else
        (if 1 < cur.length then [joinN cur] else []) ++
          (if (title ++ '\n' :: entry).length ≤ limit then
            packEntries limit title [title, entry] rest
          else
            hardSplit title (max 1 (limit - title.length - 1)) entry ++
              packEntries limit title [title] rest)

/-- One iteration of the `for section in sections` loop. -/
def packSection (limit : Nat) (sec : List LStr) : List LStr :=
  match sec with
  | [] => []
  | title :: rest => packEntries limit title [title] (if rest = [] then [bulletDash] else rest)

/-- `_split_report_for_delivery(report_text, limit)`
(`return chunks or _split_report_chunks(report_text, limit)`). -/
def splitForDelivery (text : LStr) (limit : Nat) : List LStr :=
  if text.length ≤ limit then [text]
  else if sectionsOf text = [] then splitReportChunks text limit
  else if ((sectionsOf text).map (packSection limit)).flatten = [] then
    splitReportChunks text limit
  else ((sectionsOf text).map (packSection limit)).flatten

/-! ## Date parsing — `datetime.strptime(date_closed, "%d.%m.%Y").date()`
as used by `generate_report` (line 223).  CPython's `%d`/`%m` match one or
two digits with value 1-31 / 1-12, `%Y` exactly four digits, the dots are
literal and the whole string must be consumed; the resulting triple must be
a valid calendar date with year ≥ 1. -/

/-- Numeric value of a digit string. -/
def natOfDigits (s : LStr) : Nat :=
  s.foldl (fun a c => 10 * a + (c.toNat - 48)) 0

/-- Helper for `splitDots`. -/
def splitDotsGo (cur : LStr) : LStr → List LStr
  | [] => [cur]
  | '.' :: rest => cur :: splitDotsGo [] rest
  | c :: rest => splitDotsGo (cur ++ [c]) rest

/-- Python `s.split(".")`. -/
def splitDots (s : LStr) : List LStr := splitDotsGo [] s

/-- Gregorian leap year. -/
def isLeapYear (y : Nat) : Bool :=
  y % 4 = 0 && (y % 100 ≠ 0 || y % 400 = 0)

/-- Number of days in a month. -/
def daysInMonth (y m : Nat) : Nat :=
  if m = 2 then (if isLeapYear y then 29 else 28)
  else if m = 4 ∨ m = 6 ∨ m = 9 ∨ m = 11 then 30
  else 31

/-- Days before the first of month `m` in year `y`. -/
def daysBeforeMonth (y m : Nat) : Nat :=
  let l : Nat := if isLeapYear y then 1 else 0
  match m with
  | 1 => 0
  | 2 => 31
  | 3 => 59 + l
  | 4 => 90 + l
  | 5 => 120 + l
  | 6 => 151 + l
  | 7 => 181 + l
  | 8 => 212 + l
  | 9 => 243 + l
  | 10 => 273 + l
  | 11 => 304 + l
  | _ => 334 + l

/-- Python `date(y, m, d).toordinal()` (proleptic Gregorian). -/
def toOrdinal (y m d : Nat) : Int :=
  ((365 * (y - 1) + (y - 1) / 4 - (y - 1) / 100 + (y - 1) / 400
    + daysBeforeMonth y m + d : Nat) : Int)

/-- A day/month component of `%d.%m.%Y`: one or two digits with value in
`[1, hi]`. -/
def componentOk (hi : Nat) (p : LStr) : Bool :=
  p.all Char.isDigit && decide (1 ≤ p.length) && decide (p.length ≤ 2)
    && decide (1 ≤ natOfDigits p) && decide (natOfDigits p ≤ hi)

/-- `strptime(s, "%d.%m.%Y").date()`: `some (y, m, d)` on success, `none`
when a `ValueError` is raised. -/
def parseDMY (s : LStr) : Option (Nat × Nat × Nat) :=
  match splitDots s with
  | [pd, pm, py] =>
      if componentOk 31 pd && componentOk 12 pm
          && py.all Char.isDigit && decide (py.length = 4) then
        let d := natOfDigits pd
        let m := natOfDigits pm
        let y := natOfDigits py
        if decide (1 ≤ y) && decide (d ≤ daysInMonth y m) then some (y, m, d) else none
      else none
  | _ => none

/-! ## Row classification — the record loop of `generate_report`
(src/weekly_report.py lines 211-247).  The two date-window endpoints are
passed as ordinals; a spreadsheet record is the four recognised columns
already read (`str(row.get(...))`). -/

/-- One spreadsheet record: the four recognised columns, as raw strings. -/
structure TaskRow where
  task : LStr
  link : LStr
  status : LStr
  dateClosed : LStr

/-- The "Done" status literal. -/
def doneLiteral : LStr := "Выполнено".data

/-- The "In progress" status literal. -/
def inProgressLiteral : LStr := "В работе".data

/-- Render one task line: linked tasks become an anchor with the
attribute-escaped href around the body-escaped task text; an unsafe or
absent link degrades to a plain bulleted escaped task. -/
def renderTask (task link : LStr) : LStr :=
  if link ≠ [] then
    match safeHref link with
    | some href =>
        "• <a href=\"".data ++ href ++ "\">".data ++ escapeBody task ++ "</a>".data
    | none => "• ".data ++ escapeBody task
  else "• ".data ++ escapeBody task

/-- Ordinal of a parsed `(y, m, d)` triple. -/
def ordOf (ymd : Nat × Nat × Nat) : Int := toOrdinal ymd.1 ymd.2.1 ymd.2.2

/-- `date_closed_dt and done_start <= date_closed_dt <= done_end`
(a `None` date is falsy). -/
def dateWindowOk (ds de : Int) (parsed : Option (Nat × Nat × Nat)) : Bool :=
  match parsed with
  | some ymd => decide (ds ≤ ordOf ymd) && decide (ordOf ymd ≤ de)
  | none => false

/-- Accumulated state of the record loop: the two task-line lists and the
number of warnings logged for malformed closed dates. -/
structure ReportAcc where
  done : List LStr
  inProgress : List LStr
  warnCount : Nat

/-- One iteration of the record loop of `generate_report`. -/
def classifyStep (ds de : Int) (acc : ReportAcc) (row : TaskRow) : ReportAcc :=
  let task := pyStrip row.task
  let link := pyStrip row.link
  let status := pyStrip row.status
  let dateClosed := pyStrip row.dateClosed
  if task = [] then acc
  else
    let parsed := if dateClosed = [] then none else parseDMY dateClosed
    let warn :=
      if dateClosed ≠ [] ∧ parseDMY dateClosed = none then acc.warnCount + 1
      else acc.warnCount
    if decide (status = doneLiteral) && dateWindowOk ds de parsed then
      { done := acc.done ++ [renderTask task link]
        inProgress := acc.inProgress
        warnCount := warn }
    else if status = inProgressLiteral then
      { done := acc.done
        inProgress := acc.inProgress ++ [renderTask task link]
        warnCount := warn }
    else
      { done := acc.done, inProgress := acc.inProgress, warnCount := warn }

/-- The record loop of `generate_report` over a full record list. -/
def reportLists (ds de : Int) (rows : List TaskRow) : ReportAcc :=
  rows.foldl (classifyStep ds de) ⟨[], [], 0⟩

/-- Characterisation used by the C5 theorem: a record contributes a Done
line iff its trimmed task is non-empty, its status is the Done literal,
its closed date parses, and the parsed date lies inside the done window. -/
def doneRow (ds de : Int) (row : TaskRow) : Bool :=
  decide (pyStrip row.task ≠ []) && decide (pyStrip row.status = doneLiteral)
    && dateWindowOk ds de
        (if pyStrip row.dateClosed = [] then none else parseDMY (pyStrip row.dateClosed))

/-- Characterisation used by the C5 theorem: a record is logged as a
warning iff its trimmed task is non-empty, its trimmed closed-date field is
non-empty and fails to parse. -/
def warnRow (row : TaskRow) : Bool :=
  decide (pyStrip row.task ≠ []) && decide (pyStrip row.dateClosed ≠ [])
    && decide (parseDMY (pyStrip row.dateClosed) = none)

/-! ## Delivery engine — `_send_message_with_retry` (lines 466-490) and
`send_report` (lines 493-532).  The transport is an oracle: for the retry
loop, the outcome of each attempt (indexed from 1); for `send_report`, the
final result of each per-message retried send.  Sleeping is recorded as the
list of delay values; log calls are recorded as counters/flags. -/

/-- Outcome of one `bot.send_message` attempt. -/
inductive AttemptOutcome
  | ok
  | timedOut
  | otherError
deriving DecidableEq

/-- Result of a complete (retried) send: returned normally, raised
`TimedOut`, or raised some other exception. -/
inductive SendResult
  | success
  | raisedTimeout
  | raisedOther
deriving DecidableEq

/-- Observable trace of `_send_message_with_retry`: its result, the number
of attempts performed, and the sleep durations in order. -/
structure RetryTrace where
  result : SendResult
  attempts : Nat
  delays : List ℚ
deriving DecidableEq

/-- `SEND_RETRY_ATTEMPTS` (line 65). -/
def SEND_RETRY_ATTEMPTS : Nat := 3

/-- The retry loop of `_send_message_with_retry` over the list of attempt
numbers still to run (`range(1, SEND_RETRY_ATTEMPTS + 1)`): a success or a
non-timeout failure ends the loop at once; on a timeout the last attempt
(`attempt >= SEND_RETRY_ATTEMPTS`, i.e. an empty tail) breaks and the
timeout is re-raised, otherwise the loop sleeps `base * attempt` and
retries. -/
def retryList (base : ℚ) (f : Nat → AttemptOutcome) : List Nat → RetryTrace
  | [] => ⟨.raisedTimeout, 0, []⟩
  | attempt :: rest =>
      match f attempt with
      | .ok => ⟨.success, 1, []⟩
      | .otherError => ⟨.raisedOther, 1, []⟩
      | .timedOut =>
          if rest = [] then ⟨.raisedTimeout, 1, []⟩
          else
            let t := retryList base f rest
            ⟨t.result, t.attempts + 1, base * (attempt : ℚ) :: t.delays⟩

/-- `_send_message_with_retry` with `SEND_RETRY_BASE_DELAY_SEC = base`:
the attempt outcomes are given by the oracle `f` (1-based). -/
def sendWithRetry (base : ℚ) (f : Nat → AttemptOutcome) : RetryTrace :=
  retryList base f (List.range' 1 SEND_RETRY_ATTEMPTS)

/-- The chunk loop of `send_report`: accumulates `sent_chunks` and
`failed_chunks`; `except TimedOut` counts and continues, any other
exception propagates (third component). -/
def chunksGo : List SendResult → Nat → Nat → Nat × Nat × Option SendResult
  | [], sent, failed => (sent, failed, none)
  | r :: rest, sent, failed =>
      match r with
      | .success => chunksGo rest (sent + 1) failed
      | .raisedTimeout => chunksGo rest sent (failed + 1)
      | .raisedOther => (sent, failed, some .raisedOther)

/-- The partial-failure warning text of `send_report` (lines 525-528). -/
def warnText (failed total : Nat) : LStr :=
  "⚠️ Из-за нестабильной сети не отправлено ".data ++ (Nat.repr failed).data
    ++ " из ".data ++ (Nat.repr total).data ++ " частей отчета.".data

/-- Observable trace of `send_report`: the exception propagated to the
caller (if any), the warning messages attempted, and whether the
"failed to deliver partial-send warning" log line was emitted. -/
structure DeliveryTrace where
  raised : Option SendResult
  warningsSent : List LStr
  warnFailureLogged : Bool
deriving DecidableEq

/-- `send_report` given the report chunks and the per-message transport
results: the intro send (retried) happens first when the intro text is
non-empty; each chunk is then sent with timeouts counted and other errors
propagating; with zero delivered chunks a `TimedOut` is raised; with a
partial failure one warning is sent, whose own timeout is only logged. -/
def sendReport (intro : LStr) (chunks : List LStr) (introRes : SendResult)
    (chunkRes : List SendResult) (warnRes : SendResult) : DeliveryTrace :=
  if intro ≠ [] ∧ introRes ≠ .success then ⟨some introRes, [], false⟩
  else
    match chunksGo chunkRes 0 0 with
    | (_, _, some e) => ⟨some e, [], false⟩
    | (sent, failed, none) =>
        if sent = 0 then ⟨some .raisedTimeout, [], false⟩
        else if 0 < failed then
          match warnRes with
          | .success => ⟨none, [warnText failed chunks.length], false⟩
          | .raisedTimeout => ⟨none, [warnText failed chunks.length], true⟩
          | .raisedOther => ⟨some .raisedOther, [warnText failed chunks.length], false⟩
        else ⟨none, [], false⟩

end WeeklyBot

namespace WeeklyBot

/-- C7: with an empty allow-list the corresponding check permits every
identifier; with a non-empty one it permits exactly the listed identifiers;
the chat check and the user check are independent conjuncts, so a request
with an allowed chat id but a missing user id passes iff the user
allow-list is empty. -/
theorem access_guard_spec (chats users : Finset ℤ) (c u : ℤ) :
    (isAllowedChat chats c = true ↔ (chats = ∅ ∨ c ∈ chats))
    ∧ (isAllowedUser users (some u) = true ↔ (users = ∅ ∨ u ∈ users))
    ∧ (isAllowedUser users none = true ↔ users = ∅)
    ∧ (allowedRequest chats users c none = true ↔ ((chats = ∅ ∨ c ∈ chats) ∧ users = ∅)) := by
  unfold allowedRequest isAllowedChat isAllowedUser
  by_cases hc : chats = ∅ <;> by_cases hu : users = ∅ <;>
    simp [hc, hu]

/-! ### Helper lemmas for the chunker theorems -/

/-- The slicing loop of `_split_report_chunks` is insensitive to any fuel
that covers the length of the sliced line (stride ≥ 1). -/
theorem sliceByGo_fuel (limit : Nat) (hl : 1 ≤ limit) :
    ∀ (f1 f2 : Nat) (line : LStr), line.length ≤ f1 → line.length ≤ f2 →
      sliceByGo limit f1 line = sliceByGo limit f2 line := by
  intro f1
  induction f1 with
  | zero =>
      intro f2 line h1 _
      have : line = [] := List.length_eq_zero.mp (Nat.le_zero.mp h1)
      subst this
      cases f2 <;> rfl
  | succ f ih =>
      intro f2 line h1 h2
      cases line with
      | nil => cases f2 <;> rfl
      | cons c cs =>
          have hlen : (c :: cs).length = cs.length + 1 := rfl
          cases f2 with
          | zero => simp [List.length_cons] at h2
          | succ g =>
              simp only [sliceByGo]
              have hdrop : ((c :: cs).drop limit).length ≤ cs.length := by
                rw [List.length_drop]
                simp only [List.length_cons]
                omega
              have hcs1 : cs.length ≤ f := by
                simp only [List.length_cons] at h1; omega
              have hcs2 : cs.length ≤ g := by
                simp only [List.length_cons] at h2; omega
              rw [ih g ((c :: cs).drop limit) (le_trans hdrop hcs1) (le_trans hdrop hcs2)]

/-- The hard-split loop of `_split_report_for_delivery` is insensitive to
any fuel that covers the length of the entry (stride ≥ 1). -/
theorem hardSplitGo_fuel (title : LStr) (room : Nat) (hr : 1 ≤ room) :
    ∀ (f1 f2 : Nat) (entry : LStr), entry.length ≤ f1 → entry.length ≤ f2 →
      hardSplitGo title room f1 entry = hardSplitGo title room f2 entry := by
  intro f1
  induction f1 with
  | zero =>
      intro f2 entry h1 _
      have : entry = [] := List.length_eq_zero.mp (Nat.le_zero.mp h1)
      subst this
      cases f2 <;> rfl
  | succ f ih =>
      intro f2 entry h1 h2
      cases entry with
      | nil => cases f2 <;> rfl
      | cons c cs =>
          cases f2 with
          | zero => simp [List.length_cons] at h2
          | succ g =>
              simp only [hardSplitGo]
              have hdrop : ((c :: cs).drop room).length ≤ cs.length := by
                rw [List.length_drop]
                simp only [List.length_cons]
                omega
              have hcs1 : cs.length ≤ f := by
                simp only [List.length_cons] at h1; omega
              have hcs2 : cs.length ≤ g := by
                simp only [List.length_cons] at h2; omega
              rw [ih g ((c :: cs).drop room) (le_trans hdrop hcs1) (le_trans hdrop hcs2)]

/-- Every chunk the hard-split loop emits is the title, a newline and a
slice of at most `room` characters. -/
theorem hardSplitGo_length (title : LStr) (room : Nat) :
    ∀ (fuel : Nat) (entry : LStr), ∀ c ∈ hardSplitGo title room fuel entry,
      c.length ≤ title.length + 1 + room := by
  intro fuel
  induction fuel with
  | zero =>
      intro entry c hc
      cases entry <;> simp [hardSplitGo] at hc
  | succ f ih =>
      intro entry c hc
      cases entry with
      | nil => simp [hardSplitGo] at hc
      | cons a as =>
          simp only [hardSplitGo, List.mem_cons] at hc
          rcases hc with rfl | hc
          · simp only [List.length_append, List.length_cons, List.length_take]
            omega
          · exact ih _ c hc

/-- Every chunk the hard-split loop emits starts with the title and a
newline. -/
theorem hardSplitGo_headed (title : LStr) (room : Nat) :
    ∀ (fuel : Nat) (entry : LStr), ∀ c ∈ hardSplitGo title room fuel entry,
      ∃ t, c = title ++ '\n' :: t := by
  intro fuel
  induction fuel with
  | zero =>
      intro entry c hc
      cases entry <;> simp [hardSplitGo] at hc
  | succ f ih =>
      intro entry c hc
      cases entry with
      | nil => simp [hardSplitGo] at hc
      | cons a as =>
          simp only [hardSplitGo, List.mem_cons] at hc
          rcases hc with rfl | hc
          · exact ⟨_, rfl⟩
          · exact ih _ c hc

/-- The hard-split loop of a non-empty entry emits at least one chunk. -/
theorem hardSplit_ne_nil (title : LStr) (room : Nat) (entry : LStr)
    (h : entry ≠ []) : hardSplit title room entry ≠ [] := by
  cases entry with
  | nil => exact absurd rfl h
  | cons a as => simp [hardSplit, hardSplitGo]

/-- C9: both splitters always return at least one chunk — when the packing
loops produce nothing, `_split_report_chunks` falls back to the whole text
and `_split_report_for_delivery` falls back to `_split_report_chunks`. -/
theorem split_nonempty (text : LStr) (limit : Nat) (_h : 1 ≤ limit) :
    splitReportChunks text limit ≠ [] ∧ splitForDelivery text limit ≠ [] := by
  have hchunks : ∀ (t : LStr) (l : Nat), splitReportChunks t l ≠ [] := by
    intro t l
    unfold splitReportChunks
    split
    · simp
    · split
      · simp
      · assumption
  refine ⟨hchunks text limit, ?_⟩
  unfold splitForDelivery
  split
  · simp
  · split
    · exact hchunks text limit
    · split
      · exact hchunks text limit
      · assumption

/-- C9 witness: concrete evaluation at text `"ab"` and limit 1. -/
theorem split_nonempty_witness :
    splitReportChunks "ab".data 1 ≠ [] ∧ splitForDelivery "ab".data 1 ≠ [] :=
  split_nonempty "ab".data 1 (by decide)

/-- C10: both slicing loops stabilise once the fuel covers the length of
the sliced string, i.e. they terminate within `len` iterations because the
index advances by the stride (≥ 1) each pass; for the hard-split loop of
`_split_report_for_delivery` the stride `max 1 (limit - len(title) - 1)`
is ≥ 1 for every limit, so its termination needs no side condition. -/
theorem split_loops_terminate :
    (∀ (limit : Nat) (line : LStr) (fuel : Nat), 1 ≤ limit → line.length ≤ fuel →
      sliceByGo limit fuel line = sliceBy limit line)
    ∧ (∀ (title : LStr) (room : Nat) (entry : LStr) (fuel : Nat),
        1 ≤ room → entry.length ≤ fuel →
        hardSplitGo title room fuel entry = hardSplit title room entry)
    ∧ (∀ (title entry : LStr) (limit fuel : Nat), entry.length ≤ fuel →
        hardSplitGo title (max 1 (limit - title.length - 1)) fuel entry
          = hardSplit title (max 1 (limit - title.length - 1)) entry) := by
  refine ⟨?_, ?_, ?_⟩
  · intro limit line fuel hl hf
    exact sliceByGo_fuel limit hl fuel line.length line hf le_rfl
  · intro title room entry fuel hr hf
    exact hardSplitGo_fuel title room hr fuel entry.length entry hf le_rfl
  · intro title entry limit fuel hf
    exact hardSplitGo_fuel title _ (Nat.le_max_left 1 _) fuel entry.length entry hf le_rfl

/-- C10 witness: concrete fuels covering the sliced strings. -/
theorem split_loops_terminate_witness :
    sliceByGo 1 7 "abc".data = sliceBy 1 "abc".data
    ∧ hardSplitGo "T".data 2 9 "abcd".data = hardSplit "T".data 2 "abcd".data
    ∧ hardSplitGo "T".data (max 1 (4 - ("T".data).length - 1)) 9 "abcd".data
        = hardSplit "T".data (max 1 (4 - ("T".data).length - 1)) "abcd".data :=
  ⟨split_loops_terminate.1 1 "abc".data 7 (by decide) (by decide),
   split_loops_terminate.2.1 "T".data 2 "abcd".data 9 (by decide) (by decide),
   split_loops_terminate.2.2 "T".data "abcd".data 4 9 (by decide)⟩

/-- C1 counterexample: at limit 1 the report text `"\n\n"` (length 2, no
non-blank section) makes `_split_report_for_delivery` fall back to
`_split_report_chunks`, which returns the whole two-character text as its
only chunk — longer than the limit. -/
theorem split_for_delivery_length_cex :
    ∃ c ∈ splitForDelivery "\n\n".data 1, 1 < c.length := by decide

/-- A non-blank line is non-empty (the empty line is all-whitespace). -/
theorem ne_nil_of_not_blank (l : LStr) (h : isBlankLine l = false) : l ≠ [] := by
  intro he
  subst he
  simp [isBlankLine] at h

/-- Every section the section builder emits is non-empty and consists of
non-blank lines (given the invariant for the pending section). -/
theorem sectionsAux_wf :
    ∀ (lines : List LStr) (cur : List LStr), (∀ l ∈ cur, isBlankLine l = false) →
      ∀ sec ∈ sectionsAux lines cur, sec ≠ [] ∧ ∀ l ∈ sec, isBlankLine l = false := by
  intro lines
  induction lines with
  | nil =>
      intro cur hcur sec hsec
      simp only [sectionsAux] at hsec
      split at hsec
      · simp at hsec
      · rename_i hne
        simp only [List.mem_singleton] at hsec
        subst hsec
        exact ⟨hne, hcur⟩
  | cons line rest ih =>
      intro cur hcur sec hsec
      simp only [sectionsAux] at hsec
      rcases hb : isBlankLine line with hf | ht
      · rw [hb, if_neg Bool.false_ne_true] at hsec
        refine ih (cur ++ [line]) ?_ sec hsec
        intro l hl
        rcases List.mem_append.mp hl with h | h
        · exact hcur l h
        · simp only [List.mem_singleton] at h
          subst h
          exact hb
      · rw [hb, if_pos rfl] at hsec
        split at hsec
        · exact ih [] (by simp) sec hsec
        · rename_i hne
          rcases List.mem_cons.mp hsec with rfl | h
          · exact ⟨hne, hcur⟩
          · exact ih [] (by simp) sec h

/-- Packing-loop invariant for the length bound: if the header fits with
two characters to spare and the pending chunk fits, every emitted chunk
fits within the limit. -/
theorem packEntries_le (limit : Nat) (title : LStr) (hT : title.length + 2 ≤ limit) :
    ∀ (entries : List LStr) (cur : List LStr), (joinN cur).length ≤ limit →
      ∀ c ∈ packEntries limit title cur entries, c.length ≤ limit := by
  intro entries
  induction entries with
  | nil =>
      intro cur hcur c hc
      simp only [packEntries] at hc
      split at hc
      · simp only [List.mem_singleton] at hc
        subst hc
        exact hcur
      · simp at hc
  | cons entry rest ih =>
      intro cur hcur c hc
      simp only [packEntries] at hc
      by_cases h1 : (joinN (cur ++ [entry])).length ≤ limit
      · rw [if_pos h1] at hc
        exact ih (cur ++ [entry]) h1 c hc
      · rw [if_neg h1] at hc
        rcases List.mem_append.mp hc with hflush | hgo
        · split at hflush
          · simp only [List.mem_singleton] at hflush
            subst hflush
            exact hcur
          · simp at hflush
        · by_cases h2 : (title ++ '\n' :: entry).length ≤ limit
          · rw [if_pos h2] at hgo
            refine ih [title, entry] ?_ c hgo
            have hj : joinN [title, entry] = title ++ '\n' :: entry := rfl
            rw [hj]
            exact h2
          · rw [if_neg h2] at hgo
            rcases List.mem_append.mp hgo with hhard | htail
            · simp only [hardSplit] at hhard
              have hb := hardSplitGo_length title (max 1 (limit - title.length - 1))
                entry.length entry c hhard
              have hmax : max 1 (limit - title.length - 1) = limit - title.length - 1 := by
                omega
              rw [hmax] at hb
              omega
            · refine ih [title] ?_ c htail
              have hj : joinN [title] = title := rfl
              rw [hj]
              omega

/-- Packing-loop invariant for section headers: when the pending chunk
starts with the title, every emitted chunk starts with the title followed
by a newline. -/
theorem packEntries_headed (limit : Nat) (title : LStr) :
    ∀ (entries : List LStr) (cur extra : List LStr), cur = title :: extra →
      ∀ c ∈ packEntries limit title cur entries, ∃ t, c = title ++ '\n' :: t := by
  intro entries
  induction entries with
  | nil =>
      intro cur extra hcur c hc
      simp only [packEntries] at hc
      split at hc
      · rename_i hlen
        simp only [List.mem_singleton] at hc
        subst hc
        subst hcur
        cases extra with
        | nil => simp at hlen
        | cons e r => exact ⟨joinN (e :: r), rfl⟩
      · simp at hc
  | cons entry rest ih =>
      intro cur extra hcur c hc
      simp only [packEntries] at hc
      by_cases h1 : (joinN (cur ++ [entry])).length ≤ limit
      · rw [if_pos h1] at hc
        exact ih (cur ++ [entry]) (extra ++ [entry]) (by rw [hcur]; rfl) c hc
      · rw [if_neg h1] at hc
        rcases List.mem_append.mp hc with hflush | hgo
        · split at hflush
          · rename_i hlen
            simp only [List.mem_singleton] at hflush
            subst hflush
            subst hcur
            cases extra with
            | nil => simp at hlen
            | cons e r => exact ⟨joinN (e :: r), rfl⟩
          · simp at hflush
        · by_cases h2 : (title ++ '\n' :: entry).length ≤ limit
          · rw [if_pos h2] at hgo
            exact ih [title, entry] [entry] rfl c hgo
          · rw [if_neg h2] at hgo
            rcases List.mem_append.mp hgo with hhard | htail
            · simp only [hardSplit] at hhard
              exact hardSplitGo_headed title _ entry.length entry c hhard
            · exact ih [title] [] rfl c htail

/-- The packing loop emits at least one chunk when started on a non-empty
pending chunk and a non-empty list of non-empty entries. -/
theorem packEntries_ne_nil (limit : Nat) (title : LStr) :
    ∀ (entries : List LStr) (cur : List LStr), cur ≠ [] → entries ≠ [] →
      (∀ e ∈ entries, e ≠ []) → packEntries limit title cur entries ≠ [] := by
  intro entries
  induction entries with
  | nil =>
      intro cur _ hne _
      exact absurd rfl hne
  | cons entry rest ih =>
      intro cur hcur _ hall
      simp only [packEntries]
      by_cases h1 : (joinN (cur ++ [entry])).length ≤ limit
      · rw [if_pos h1]
        cases rest with
        | nil =>
            simp only [packEntries]
            have hc0 : 0 < cur.length := List.length_pos.mpr hcur
            have hlen : 1 < (cur ++ [entry]).length := by
              simp only [List.length_append, List.length_cons, List.length_nil]
              omega
            rw [if_pos hlen]
            simp
        | cons r rs =>
            exact ih (cur ++ [entry]) (by simp) (by simp)
              (fun e he => hall e (List.mem_cons_of_mem _ he))
      · rw [if_neg h1]
        by_cases h2 : (title ++ '\n' :: entry).length ≤ limit
        · rw [if_pos h2]
          intro hx
          rcases List.append_eq_nil.mp hx with ⟨_, hB⟩
          cases rest with
          | nil => simp [packEntries] at hB
          | cons r rs =>
              exact ih [title, entry] (by simp) (by simp)
                (fun e he => hall e (List.mem_cons_of_mem _ he)) hB
        · rw [if_neg h2]
          have hent : entry ≠ [] := hall entry (List.mem_cons_self _ _)
          intro hx
          rcases List.append_eq_nil.mp hx with ⟨_, hB⟩
          rcases List.append_eq_nil.mp hB with ⟨hH, _⟩
          exact hardSplit_ne_nil _ _ _ hent hH

/-- The sections of a text are non-empty lists of non-blank lines. -/
theorem sectionsOf_wf (text : LStr) :
    ∀ sec ∈ sectionsOf text, sec ≠ [] ∧ ∀ l ∈ sec, isBlankLine l = false := by
  intro sec hsec
  exact sectionsAux_wf (splitlinesPy text) [] (by simp) sec hsec

/-- For a well-formed section (non-empty, non-blank lines), the per-section
packing emits at least one chunk. -/
theorem packSection_ne_nil (limit : Nat) (sec : List LStr) (hne : sec ≠ [])
    (hlines : ∀ l ∈ sec, isBlankLine l = false) : packSection limit sec ≠ [] := by
  cases sec with
  | nil => exact absurd rfl hne
  | cons title rest =>
      simp only [packSection]
      refine packEntries_ne_nil limit title _ [title] (by simp) ?_ ?_
      · split
        · simp
        · assumption
      · split
        · intro e he
          simp only [List.mem_singleton] at he
          subst he
          decide
        · intro e he
          exact ne_nil_of_not_blank e (hlines e (List.mem_cons_of_mem _ he))

/-- C1 (amended): for every limit ≥ 1, whenever the report text has at
least one non-blank section and every section header line has length at
most `limit - 2`, every chunk returned by `_split_report_for_delivery` has
length ≤ limit.  (The original unconditional claim is refuted by
`split_for_delivery_length_cex`: with no non-blank section the function
falls back to `_split_report_chunks`, which can return the whole over-long
text; and a header longer than `limit - 2` makes the hard-split chunks
`header + newline + slice` exceed the limit.) -/
theorem split_for_delivery_length_bound (text : LStr) (limit : Nat)
    (_hlim : 1 ≤ limit) (hsec : sectionsOf text ≠ [])
    (hhead : ∀ sec ∈ sectionsOf text, sec.headI.length + 2 ≤ limit) :
    ∀ c ∈ splitForDelivery text limit, c.length ≤ limit := by
  intro c hc
  unfold splitForDelivery at hc
  by_cases ht : text.length ≤ limit
  · rw [if_pos ht] at hc
    simp only [List.mem_singleton] at hc
    subst hc
    exact ht
  · rw [if_neg ht, if_neg hsec] at hc
    have hflat : ((sectionsOf text).map (packSection limit)).flatten ≠ [] := by
      obtain ⟨s0, ss, hss⟩ : ∃ s0 ss, sectionsOf text = s0 :: ss := by
        cases hs : sectionsOf text with
        | nil => exact absurd hs hsec
        | cons a l => exact ⟨a, l, rfl⟩
      have hs0 : s0 ∈ sectionsOf text := by
        rw [hss]
        exact List.mem_cons_self _ _
      have hwf0 := sectionsOf_wf text s0 hs0
      have hp0 : packSection limit s0 ≠ [] := packSection_ne_nil limit s0 hwf0.1 hwf0.2
      rw [hss]
      simp only [List.map_cons, List.flatten_cons]
      intro hx
      rcases List.append_eq_nil.mp hx with ⟨h0, _⟩
      exact hp0 h0
    rw [if_neg hflat] at hc
    rcases List.mem_flatten.mp hc with ⟨l, hl, hcl⟩
    rcases List.mem_map.mp hl with ⟨sec, hsecmem, rfl⟩
    have hwf := sectionsOf_wf text sec hsecmem
    obtain ⟨title, rest, rfl⟩ : ∃ t r, sec = t :: r := by
      cases sec with
      | nil => exact absurd rfl hwf.1
      | cons a l => exact ⟨a, l, rfl⟩
    have hhd : title.length + 2 ≤ limit := by
      have := hhead (title :: rest) hsecmem
      simpa [List.headI] using this
    simp only [packSection] at hcl
    refine packEntries_le limit title hhd _ [title] ?_ c hcl
    have hj : joinN [title] = title := rfl
    rw [hj]
    omega

/-- C1 (amended) witness: text `"ab\ncdef"` at limit 5 — the section header
`"ab"` fits with two to spare, the entry `"cdef"` is hard-split, and the
chunk `"ab\ncd"` has length 5 ≤ 5. -/
theorem split_for_delivery_length_bound_witness :
    "ab\ncd".data ∈ splitForDelivery "ab\ncdef".data 5 ∧ ("ab\ncd".data).length ≤ 5 :=
  ⟨by decide,
   split_for_delivery_length_bound "ab\ncdef".data 5 (by decide) (by decide)
     (by decide) _ (by decide)⟩

/-- C6: whenever the report text exceeds the limit and has at least one
non-blank section, the output of `_split_report_for_delivery` is exactly
the in-order concatenation of the per-section packings, and every chunk of
a section's packing begins with that section's own header line followed by
a newline — so each returned chunk carries the header of the section it
was derived from; in particular the two-section report of the repository's
test (sections DONE with 3 items and WIP with 1 item, limit 24) yields
exactly four chunks, each prefixed with its own section's header. -/
theorem split_for_delivery_section_headers :
    (∀ (text : LStr) (limit : Nat), limit < text.length → sectionsOf text ≠ [] →
      splitForDelivery text limit = ((sectionsOf text).map (packSection limit)).flatten
      ∧ ∀ sec ∈ sectionsOf text, ∀ c ∈ packSection limit sec,
          ∃ t, c = sec.headI ++ '\n' :: t)
    ∧ splitForDelivery
        ("<b>DONE</b>\n• task-1\n• task-2\n• task-3\n\n<b>WIP</b>\n• task-4").data 24
      = ["<b>DONE</b>\n• task-1".data, "<b>DONE</b>\n• task-2".data,
         "<b>DONE</b>\n• task-3".data, "<b>WIP</b>\n• task-4".data] := by
  constructor
  · intro text limit ht hsec
    have hflat : ((sectionsOf text).map (packSection limit)).flatten ≠ [] := by
      obtain ⟨s0, ss, hss⟩ : ∃ s0 ss, sectionsOf text = s0 :: ss := by
        cases hs : sectionsOf text with
        | nil => exact absurd hs hsec
        | cons a l => exact ⟨a, l, rfl⟩
      have hs0 : s0 ∈ sectionsOf text := by
        rw [hss]
        exact List.mem_cons_self _ _
      have hwf0 := sectionsOf_wf text s0 hs0
      have hp0 : packSection limit s0 ≠ [] := packSection_ne_nil limit s0 hwf0.1 hwf0.2
      rw [hss]
      simp only [List.map_cons, List.flatten_cons]
      intro hx
      rcases List.append_eq_nil.mp hx with ⟨h0, _⟩
      exact hp0 h0
    constructor
    · unfold splitForDelivery
      rw [if_neg (by omega), if_neg hsec, if_neg hflat]
    · intro sec hsecmem c hcl
      have hwf := sectionsOf_wf text sec hsecmem
      obtain ⟨title, rest, rfl⟩ : ∃ t r, sec = t :: r := by
        cases sec with
        | nil => exact absurd rfl hwf.1
        | cons a l => exact ⟨a, l, rfl⟩
      simp only [packSection] at hcl
      obtain ⟨t, ht'⟩ := packEntries_headed limit title _ [title] [] rfl c hcl
      exact ⟨t, by simpa [List.headI] using ht'⟩
  · decide

/-- C6 witness: on the test report at limit 24 the output is the
concatenation of the two per-section packings, and the first chunk starts
with the header of the DONE section it was derived from. -/
theorem split_for_delivery_section_headers_witness :
    splitForDelivery
        ("<b>DONE</b>\n• task-1\n• task-2\n• task-3\n\n<b>WIP</b>\n• task-4").data 24
      = (((sectionsOf
            ("<b>DONE</b>\n• task-1\n• task-2\n• task-3\n\n<b>WIP</b>\n• task-4").data)).map
          (packSection 24)).flatten
    ∧ ∃ t, "<b>DONE</b>\n• task-1".data
        = (["<b>DONE</b>".data, "• task-1".data, "• task-2".data,
            "• task-3".data] : List LStr).headI ++ '\n' :: t :=
  ⟨(split_for_delivery_section_headers.1
      ("<b>DONE</b>\n• task-1\n• task-2\n• task-3\n\n<b>WIP</b>\n• task-4").data 24
      (by decide) (by decide)).1,
   (split_for_delivery_section_headers.1
      ("<b>DONE</b>\n• task-1\n• task-2\n• task-3\n\n<b>WIP</b>\n• task-4").data 24
      (by decide) (by decide)).2
     ["<b>DONE</b>".data, "• task-1".data, "• task-2".data, "• task-3".data]
     (by decide) "<b>DONE</b>\n• task-1".data (by decide)⟩

/-- C4: `_safe_href` returns a rendering iff the parsed scheme is exactly
`http` or `https` and the netloc (the spec's "host component") is
non-empty, and any rendering it returns is the attribute-escaped URL; in
particular a `javascript:` URL, a relative path, an `ftp://` URL and a URL
without a host all yield `None`, while a valid `https` URL is escaped with
`&` turned into `&amp;`. -/
theorem safe_href_spec (url : LStr) :
    ((safeHref url).isSome ↔
      (((urlSchemeNetloc url).1 = "http".data ∨ (urlSchemeNetloc url).1 = "https".data)
        ∧ (urlSchemeNetloc url).2 ≠ []))
    ∧ (safeHref url = none ∨ safeHref url = some (escapeAttr url))
    ∧ safeHref "javascript:alert(1)".data = none
    ∧ safeHref "/relative/path".data = none
    ∧ safeHref "ftp://example.com/file".data = none
    ∧ safeHref "http:///path-no-host".data = none
    ∧ safeHref "https://example.com/path?a=1&b=2".data
        = some "https://example.com/path?a=1&amp;b=2".data := by
  refine ⟨?_, ?_, by decide, by decide, by decide, by decide, by decide⟩
  · by_cases h1 : ((urlSchemeNetloc url).1 = "http".data ∨ (urlSchemeNetloc url).1 = "https".data) <;>
      by_cases h2 : (urlSchemeNetloc url).2 = [] <;> simp [safeHref, h1, h2]
  · by_cases h1 : ((urlSchemeNetloc url).1 = "http".data ∨ (urlSchemeNetloc url).1 = "https".data) <;>
      by_cases h2 : (urlSchemeNetloc url).2 = [] <;> simp [safeHref, h1, h2]

/-- C8: `last_week_dates` and `current_week_dates` each return a pair
`(start, end)` with `start` on a Monday (weekday 0) and `end = start + 6`;
the current window contains `today`; the done window (= last week) ends
exactly one day before the current window starts. -/
theorem week_dates_spec (today : Int) :
    weekday (lastWeekDates today).1 = 0
    ∧ (lastWeekDates today).2 = (lastWeekDates today).1 + 6
    ∧ weekday (currentWeekDates today).1 = 0
    ∧ (currentWeekDates today).2 = (currentWeekDates today).1 + 6
    ∧ (currentWeekDates today).1 ≤ today
    ∧ today ≤ (currentWeekDates today).2
    ∧ (lastWeekDates today).2 = (currentWeekDates today).1 - 1 := by
  unfold lastWeekDates currentWeekDates weekday
  constructor
  · omega
  refine ⟨rfl, ?_, rfl, ?_, ?_, ?_⟩ <;> omega

/-! ### Helper lemmas for the classification and delivery theorems -/

/-- One record-loop step appends a Done line exactly for `doneRow` records
and counts a warning exactly for `warnRow` records. -/
theorem classifyStep_spec (ds de : Int) (acc : ReportAcc) (row : TaskRow) :
    (classifyStep ds de acc row).done
      = acc.done ++
        (if doneRow ds de row = true then
          [renderTask (pyStrip row.task) (pyStrip row.link)] else [])
    ∧ (classifyStep ds de acc row).warnCount
      = acc.warnCount + (if warnRow row = true then 1 else 0) := by
  unfold classifyStep doneRow warnRow
  by_cases h1 : pyStrip row.task = []
  · simp [h1]
  · simp only [if_neg h1, h1, not_false_eq_true, true_and, Bool.and_eq_true,
      decide_eq_true_eq, ne_eq]
    split_ifs <;> simp_all

/-- The record loop, from an arbitrary accumulator. -/
theorem reportLists_go (ds de : Int) :
    ∀ (rows : List TaskRow) (acc : ReportAcc),
      (rows.foldl (classifyStep ds de) acc).done
        = acc.done ++ (rows.filter (doneRow ds de)).map
            (fun r => renderTask (pyStrip r.task) (pyStrip r.link))
      ∧ (rows.foldl (classifyStep ds de) acc).warnCount
        = acc.warnCount + rows.countP warnRow := by
  intro rows
  induction rows with
  | nil =>
      intro acc
      simp
  | cons r rest ih =>
      intro acc
      rcases ih (classifyStep ds de acc r) with ⟨ihd, ihw⟩
      rcases classifyStep_spec ds de acc r with ⟨hd, hw⟩
      constructor
      · rw [List.foldl_cons, ihd, hd, List.filter_cons]
        by_cases hdr : doneRow ds de r = true
        · simp [hdr]
        · simp [hdr]
      · rw [List.foldl_cons, ihw, hw, List.countP_cons]
        by_cases hwr : warnRow r = true
        · simp [hwr]
          omega
        · simp [hwr]

/-- C5: in the record loop of `generate_report`, the Done section receives
exactly one line per record whose trimmed task is non-empty, whose status
equals the Done literal and whose closed-date field parses as `DD.MM.YYYY`
to a date inside the done window (both endpoints inclusive); the number of
warning-log diagnostics equals the number of non-empty-task records whose
non-empty closed-date field fails to parse — so an out-of-window Done date
is dropped silently, while an unparseable date is logged, treated as
absent, and excluded from Done. -/
theorem generate_report_done_classification (ds de : Int) (rows : List TaskRow) :
    (reportLists ds de rows).done
      = (rows.filter (doneRow ds de)).map
          (fun r => renderTask (pyStrip r.task) (pyStrip r.link))
    ∧ (reportLists ds de rows).warnCount = rows.countP warnRow := by
  have h := reportLists_go ds de rows ⟨[], [], 0⟩
  unfold reportLists
  simpa using h

/-- C3: the retry loop of `_send_message_with_retry` is fully determined by
the first three attempt outcomes — a success or a non-timeout failure on
attempt `k` ends the loop at exactly `k` attempts (returning, resp.
re-raising, at once), each retry is preceded by a `base * attempt` sleep,
and three timeouts exhaust the loop, which then raises the timeout. -/
theorem send_with_retry_policy (base : ℚ) (f : Nat → AttemptOutcome) :
    sendWithRetry base f =
      match f 1 with
      | .ok => ⟨.success, 1, []⟩
      | .otherError => ⟨.raisedOther, 1, []⟩
      | .timedOut =>
          match f 2 with
          | .ok => ⟨.success, 2, [base * 1]⟩
          | .otherError => ⟨.raisedOther, 2, [base * 1]⟩
          | .timedOut =>
              match f 3 with
              | .ok => ⟨.success, 3, [base * 1, base * 2]⟩
              | .otherError => ⟨.raisedOther, 3, [base * 1, base * 2]⟩
              | .timedOut => ⟨.raisedTimeout, 3, [base * 1, base * 2]⟩ := by
  have hr : sendWithRetry base f = retryList base f [1, 2, 3] := rfl
  rw [hr]
  cases h1 : f 1 <;> cases h2 : f 2 <;> cases h3 : f 3 <;>
    simp [retryList, h1, h2, h3]

/-- The chunk loop of `send_report` with no non-timeout failure delivers
the successes and counts the timeouts. -/
theorem chunksGo_no_other :
    ∀ (rs : List SendResult) (s f : Nat), (∀ r ∈ rs, r ≠ .raisedOther) →
      chunksGo rs s f
        = (s + rs.countP (fun r => decide (r = SendResult.success)),
           f + rs.countP (fun r => decide (r = SendResult.raisedTimeout)), none) := by
  intro rs
  induction rs with
  | nil =>
      intro s f _
      simp [chunksGo]
  | cons r rest ih =>
      intro s f hall
      cases r with
      | success =>
          simp only [chunksGo]
          rw [ih (s + 1) f (fun x hx => hall x (List.mem_cons_of_mem _ hx))]
          simp [List.countP_cons]
          omega
      | raisedTimeout =>
          simp only [chunksGo]
          rw [ih s (f + 1) (fun x hx => hall x (List.mem_cons_of_mem _ hx))]
          simp [List.countP_cons]
          omega
      | raisedOther => exact absurd rfl (hall _ (List.mem_cons_self _ _))

/-- With no non-timeout failure, every chunk either succeeds or times
out. -/
theorem countP_send_split :
    ∀ (rs : List SendResult), (∀ r ∈ rs, r ≠ .raisedOther) →
      rs.countP (fun r => decide (r = SendResult.success))
        + rs.countP (fun r => decide (r = SendResult.raisedTimeout)) = rs.length := by
  intro rs
  induction rs with
  | nil =>
      intro _
      simp
  | cons r rest ih =>
      intro hall
      have h := ih (fun x hx => hall x (List.mem_cons_of_mem _ hx))
      cases r with
      | success =>
          simp [List.countP_cons]
          omega
      | raisedTimeout =>
          simp [List.countP_cons]
          omega
      | raisedOther => exact absurd rfl (hall _ (List.mem_cons_self _ _))

/-- C2: once past the intro send, (a) if every chunk's retried send ends in
a timeout (zero chunks delivered) `send_report` raises the timeout to the
caller; (b) if some but not all chunks time out (and nothing raises a
non-timeout error), `send_report` returns normally, attempts exactly one
warning message whose text states how many of how many chunks were not
delivered, and a timeout of that warning send is only logged, never
raised. -/
theorem send_report_failure_policy :
    (∀ (introText : LStr) (chunks : List LStr) (introRes : SendResult)
        (chunkRes : List SendResult) (warnRes : SendResult),
      (introText = [] ∨ introRes = .success) →
      (∀ r ∈ chunkRes, r = .raisedTimeout) →
      (sendReport introText chunks introRes chunkRes warnRes).raised
        = some .raisedTimeout)
    ∧ (∀ (introText : LStr) (chunks : List LStr) (introRes : SendResult)
        (chunkRes : List SendResult) (warnRes : SendResult),
      (introText = [] ∨ introRes = .success) →
      chunkRes.length = chunks.length →
      (∀ r ∈ chunkRes, r ≠ .raisedOther) →
      0 < chunkRes.countP (fun r => decide (r = SendResult.raisedTimeout)) →
      chunkRes.countP (fun r => decide (r = SendResult.raisedTimeout)) < chunkRes.length →
      warnRes ≠ .raisedOther →
      (sendReport introText chunks introRes chunkRes warnRes).raised = none
      ∧ (sendReport introText chunks introRes chunkRes warnRes).warningsSent
          = [warnText
              (chunkRes.countP (fun r => decide (r = SendResult.raisedTimeout)))
              chunks.length]
      ∧ (warnRes = .raisedTimeout →
          (sendReport introText chunks introRes chunkRes warnRes).warnFailureLogged
            = true)) := by
  constructor
  · intro introText chunks introRes chunkRes warnRes hIntro hall
    have hno : ∀ r ∈ chunkRes, r ≠ .raisedOther := by
      intro r hr
      rw [hall r hr]
      simp
    have hzero : chunkRes.countP (fun r => decide (r = SendResult.success)) = 0 := by
      rw [List.countP_eq_zero]
      intro a ha
      simp [hall a ha]
    have hneg : ¬(introText ≠ [] ∧ introRes ≠ SendResult.success) := by
      rcases hIntro with h | h <;> simp [h]
    unfold sendReport
    rw [if_neg hneg, chunksGo_no_other chunkRes 0 0 hno, hzero]
    simp
  · intro introText chunks introRes chunkRes warnRes hIntro hlen hno hpos hlt hwr
    have hsum := countP_send_split chunkRes hno
    have hneg : ¬(introText ≠ [] ∧ introRes ≠ SendResult.success) := by
      rcases hIntro with h | h <;> simp [h]
    have hsne : ¬(0 + chunkRes.countP (fun r => decide (r = SendResult.success)) = 0) := by
      omega
    unfold sendReport
    rw [if_neg hneg, chunksGo_no_other chunkRes 0 0 hno]
    simp only [if_neg hsne]
    rw [if_pos (by omega :
      0 < 0 + chunkRes.countP (fun r => decide (r = SendResult.raisedTimeout)))]
    have hzs : (0 : Nat) + chunkRes.countP (fun r => decide (r = SendResult.raisedTimeout))
        = chunkRes.countP (fun r => decide (r = SendResult.raisedTimeout)) := by omega
    cases warnRes with
    | success => simp [hzs]
    | raisedTimeout => simp [hzs]
    | raisedOther => exact absurd rfl hwr

/-- C2 witness: part (a) at one all-timeout chunk; part (b) at two chunks
with one delivered and one failed, and a warning send that itself times
out. -/
theorem send_report_failure_policy_witness :
    (sendReport [] ["a".data] .success [.raisedTimeout] .success).raised
        = some .raisedTimeout
    ∧ (sendReport [] ["a".data, "b".data] .success [.success, .raisedTimeout]
        .raisedTimeout).raised = none
    ∧ (sendReport [] ["a".data, "b".data] .success [.success, .raisedTimeout]
        .raisedTimeout).warningsSent = [warnText 1 2]
    ∧ (sendReport [] ["a".data, "b".data] .success [.success, .raisedTimeout]
        .raisedTimeout).warnFailureLogged = true := by
  have hb := send_report_failure_policy.2 [] ["a".data, "b".data] .success
    [.success, .raisedTimeout] .raisedTimeout (Or.inl rfl) (by decide) (by decide)
    (by decide) (by decide) (by decide)
  exact ⟨send_report_failure_policy.1 [] ["a".data] .success [.raisedTimeout] .success
      (Or.inl rfl) (by decide), hb.1, hb.2.1, hb.2.2 rfl⟩

end WeeklyBot
